import Mathlib

/-
  Verification development for the migo migration runner (migo.py).

  The embedding models the migration engine shallowly:
  - the filesystem is a list of files (name, content), listed in arbitrary order;
  - the database ledger table is a list of rows in insertion order;
  - executed SQL scripts are recorded in an execution log;
  - fallible operations return Except String / pair results carrying the
    final state and an optional error (an uncaught Python exception).

  Unicode digits and exotic unicode whitespace accepted by Python int() are
  not modelled; ASCII digits, sign and ASCII whitespace are.
-/

namespace Migo

/-- One row of the __migrations ledger table: (name, revision), in insertion
order.  The SERIAL id column is represented by the list position. -/
structure LedgerRow where
  name : String
  revision : Int
deriving DecidableEq

/-- One file of the migrations directory: file name and full text content. -/
structure MFile where
  name : String
  content : String
deriving DecidableEq

/-- Database-visible state: the ledger table rows (insertion order) and the
log of executed SQL script texts (execution order). -/
structure MigState where
  ledger : List LedgerRow
  executed : List String
deriving DecidableEq

/-- Decimal digit character for a value below 10. -/
def digitChar : Nat → Char
  | 0 => '0' | 1 => '1' | 2 => '2' | 3 => '3' | 4 => '4'
  | 5 => '5' | 6 => '6' | 7 => '7' | 8 => '8' | 9 => '9'
  | _ => '*'

/-- Fuel-based decimal digit expansion of a natural number (most significant
digit first); fuel at least n + 1 suffices. -/
def natDecAux : Nat → Nat → List Char
  | 0, _ => []
  | fuel + 1, n =>
    if n < 10 then [digitChar n]
    else natDecAux fuel (n / 10) ++ [digitChar (n % 10)]

/-- Decimal string of a natural number, as Python str() prints it. -/
def natDec (n : Nat) : String := String.mk (natDecAux (n + 1) n)

/-- Decimal string of an integer, as Python str() prints it. -/
def intDec : Int → String
  | Int.ofNat n => natDec n
  | Int.negSucc n => "-" ++ natDec (n + 1)

/-- Strip leading and trailing whitespace characters from a character list. -/
def trimWs (l : List Char) : List Char :=
  ((l.dropWhile (fun c => c.isWhitespace)).reverse.dropWhile
    (fun c => c.isWhitespace)).reverse

/-- Value of a most-significant-first decimal digit list. -/
def digitsVal (cs : List Char) : Nat :=
  cs.foldl (fun a c => 10 * a + (c.toNat - 48)) 0

/-- Parse a nonempty all-digit character list as a natural number. -/
def parseDigits (cs : List Char) : Option Nat :=
  if (!cs.isEmpty) && cs.all (fun c => c.isDigit) then some (digitsVal cs)
  else none

/-- Model of Python int(s) on a string: optional surrounding whitespace, an
optional single + or - sign, then one or more decimal digits; anything else
raises ValueError (returns none). -/
def pyInt (s : String) : Option Int :=
  match trimWs s.toList with
  | [] => none
  | c :: rest =>
    if c = '+' then (parseDigits rest).map (fun n => (n : Int))
    else if c = '-' then (parseDigits rest).map (fun n => -(n : Int))
    else (parseDigits (c :: rest)).map (fun n => (n : Int))

/-- Everything before the first underscore of a file name: Python
script_name.split(.:underscore:.)[0]. -/
def leadingToken (s : String) : String :=
  String.mk (s.toList.takeWhile (fun c => c != '_'))

/-- Python name.endswith of the string dot-s-q-l. -/
def endsWithSql (s : String) : Bool :=
  match s.toList.reverse with
  | 'l' :: 'q' :: 's' :: '.' :: _ => true
  | _ => false

/-- One candidate of the discovery loop in Migrator._get_migration_scripts:
parse the leading token as an int, pairing it with the file name; a parse
failure raises the naming exception for that file. -/
def parseScript (scriptName : String) : Except String (Int × String) :=
  match pyInt (leadingToken scriptName) with
  | some i => Except.ok (i, scriptName)
  | none =>
    Except.error ("Migration \"" ++ scriptName ++ "\" must start with a number")

/-- The discovery loop over the .sql candidates, in listing order; stops with
the exception of the first malformed name. -/
def collectScripts : List String → Except String (List (Int × String))
  | [] => Except.ok []
  | n :: ns =>
    match parseScript n with
    | Except.error e => Except.error e
    | Except.ok p =>
      match collectScripts ns with
      | Except.error e => Except.error e
      | Except.ok ps => Except.ok (p :: ps)

/-- Lexicographic order on character lists by code point, the order Python
uses to compare strings. -/
def charListLe : List Char → List Char → Bool
  | [], _ => true
  | _ :: _, [] => false
  | a :: as, b :: bs =>
    if a.toNat < b.toNat then true
    else if a.toNat = b.toNat then charListLe as bs
    else false

/-- Python string comparison (code-point lexicographic). -/
def strLeP (a b : String) : Bool := charListLe a.toList b.toList

/-- Python tuple comparison on (int, str) pairs, as used by sorted(). -/
def pairLe (a b : Int × String) : Bool :=
  if a.1 < b.1 then true
  else if a.1 = b.1 then strLeP a.2 b.2
  else false

/-- Insert one pair into an already sorted list. -/
def insertSorted (x : Int × String) : List (Int × String) → List (Int × String)
  | [] => [x]
  | y :: ys => if pairLe x y then x :: y :: ys else y :: insertSorted x ys

/-- Python sorted() on the discovered (index, name) pairs. -/
def sortPairs (xs : List (Int × String)) : List (Int × String) :=
  xs.foldr insertSorted []

/-- Migrator._get_migration_scripts, over the directory listing: keep the
.sql names, parse each leading token as an int (first failure aborts the
whole discovery), and return the pairs sorted ascending. -/
def getMigrationScripts (names : List String) :
    Except String (List (Int × String)) :=
  match collectScripts (names.filter endsWithSql) with
  | Except.error e => Except.error e
  | Except.ok ps => Except.ok (sortPairs ps)

/-- Migrator._get_latest_revision: SELECT revision ... ORDER BY revision DESC
LIMIT 1, then revision or 0 - the maximum revision, or 0 for an empty table. -/
def getLatestRevision : List LedgerRow → Int
  | [] => 0
  | r :: rs => (rs.map (fun x => x.revision)).foldl max r.revision

/-- Read a file's content from the directory by name. -/
def lookupFile (files : List MFile) (scriptName : String) : Option String :=
  (files.find? (fun f => f.name == scriptName)).map (fun f => f.content)

/-- Migrator._run_migration: re-read the head revision; skip if the script
index is at most the head; otherwise read the script (failing if it is
empty), execute it transactionally, and insert the ledger row. -/
def runMigration (files : List MFile) (index : Int) (scriptName : String)
    (s : MigState) : Except String MigState :=
  let revision := getLatestRevision s.ledger
  if index ≤ revision then Except.ok s
  else
    match lookupFile files scriptName with
    | none => Except.error ("IOError: " ++ scriptName)
    | some sql =>
      if sql = "" then
        Except.error ("Migration \"" ++ scriptName ++ "\" is empty")
      else
        Except.ok { ledger := s.ledger ++ [⟨scriptName, index⟩],
                    executed := s.executed ++ [sql] }

/-- The loop of Migrator.run_migrations over the discovered scripts; an
exception halts the loop, leaving the state already produced. -/
def runList (files : List MFile) :
    List (Int × String) → MigState → MigState × Option String
  | [], s => (s, none)
  | (i, n) :: rest, s =>
    match runMigration files i n s with
    | Except.error e => (s, some e)
    | Except.ok s' => runList files rest s'

/-- Migrator.run_migrations: discover the scripts, then run each in order.
Returns the final database state and the error that escaped, if any. -/
def runMigrations (files : List MFile) (s : MigState) :
    MigState × Option String :=
  match getMigrationScripts (files.map (fun f => f.name)) with
  | Except.error e => (s, some e)
  | Except.ok scripts => runList files scripts s

/-- Maximum first component of a pair list, 0 when empty. -/
def maxIndexD : List (Int × String) → Int
  | [] => 0
  | p :: ps => (ps.map (fun q => q.1)).foldl max p.1

/-- Python: filename = script_name; if not filename: filename = uuid4()[:8].
None and the empty string both fall back to the generated identifier. -/
def chosenName : Option String → String → String
  | none, rid => rid
  | some x, rid => if x = "" then rid else x

/-- Python open(path, w-mode) followed by a write: truncates an existing file
of that name, otherwise creates a new one. -/
def writeFileW (files : List MFile) (fname content : String) : List MFile :=
  if files.any (fun f => f.name == fname) then
    files.map (fun f => if f.name == fname then ⟨f.name, content⟩ else f)
  else files ++ [⟨fname, content⟩]

/-- The index of the last discovered script: Python
scripts[-1] under a try, with 0 on IndexError (empty list). -/
def lastIndexD (l : List (Int × String)) : Int :=
  match l.getLast? with
  | none => 0
  | some p => p.1

/-- Migrator.new_migration_script: take the last discovered script's index
(0 when there are none), add one, and create an empty file named
index_name.sql, generating a name when none (or an empty one) was given. -/
def newMigrationScript (files : List MFile) (scriptName : Option String)
    (randomId : String) : Except String (List MFile) :=
  match getMigrationScripts (files.map (fun f => f.name)) with
  | Except.error e => Except.error e
  | Except.ok scripts =>
    let fname := intDec (lastIndexD scripts + 1) ++ "_" ++
      chosenName scriptName randomId ++ ".sql"
    Except.ok (writeFileW files fname "")

/-- The ledger table as the database holds it: none when the __migrations
table does not exist, some rows when it does. -/
def headRevisionDB : Option (List LedgerRow) → Except String Int
  | none => Except.error "UndefinedTableError"
  | some rows => Except.ok (getLatestRevision rows)

/-- Migrator.setup: probe the __migrations table; if absent (undefined table
error), create it empty. An existing table is left as is. -/
def setup : Option (List LedgerRow) → Option (List LedgerRow)
  | none => some []
  | some rows => some rows

/-- The retry loop of Migrator.wait_for_database, from attempt number i with
the given remaining budget.  Returns the connection obtained (none when the
budget is exhausted and the final exception is raised), the number of
connection attempts made, and the list of sleep durations performed. -/
def waitFrom (attempt : Nat → Option α) (sleepInterval : Nat) :
    Nat → Nat → Option α × Nat × List Nat
  | _, 0 => (none, 0, [])
  | i, rem + 1 =>
    match attempt i with
    | some c => (some c, 1, [])
    | none =>
      let r := waitFrom attempt sleepInterval (i + 1) rem
      (r.1, r.2.1 + 1, sleepInterval :: r.2.2)

/-- Migrator.wait_for_database with an abstract connection capability:
attempt i models the i-th asyncpg.connect call (some on success). -/
def waitForDatabase (attempt : Nat → Option α) (sleepInterval maxAttempts : Nat) :
    Option α × Nat × List Nat :=
  waitFrom attempt sleepInterval 0 maxAttempts

/-- WAIT_ITERATIONS class constant. -/
def WAIT_ITERATIONS : Nat := 15

/-- WAIT_SLEEP class constant. -/
def WAIT_SLEEP : Nat := 2

/-- Database states this system itself produces: the freshly created empty
ledger, and anything a run of run_migrations makes of a produced state. -/
inductive Reachable : MigState → Prop where
  | init : Reachable ⟨[], []⟩
  | step (files : List MFile) (s : MigState) :
      Reachable s → Reachable (runMigrations files s).1

/-- Worded from the spec for comparison with the code's parsing: a leading
token that parses as a base-10 non-negative integer, digits only. -/
def specParsesAsNonNegInt (s : String) : Bool :=
  (!s.toList.isEmpty) && s.toList.all (fun c => c.isDigit)

/-- Facts about decimal digit characters, by case analysis on the digit. -/
lemma digitChar_props (d : Nat) (h : d < 10) :
    (digitChar d).isDigit = true ∧ (digitChar d).isWhitespace = false ∧
    (digitChar d) ≠ '+' ∧ (digitChar d) ≠ '-' ∧
    ((digitChar d) != '_') = true ∧ (digitChar d).toNat = 48 + d := by
  interval_cases d <;> exact ⟨by decide, by decide, by decide, by decide,
    by decide, by decide⟩

/-- Appending one digit multiplies the value by ten and adds the digit. -/
lemma digitsVal_append (xs : List Char) (c : Char) :
    digitsVal (xs ++ [c]) = 10 * digitsVal xs + (c.toNat - 48) := by
  simp [digitsVal, List.foldl_append]

/-- The decimal expansion is nonempty, made of digit characters, and decodes
to the number, as long as the fuel exceeds the number. -/
lemma natDecAux_spec : ∀ (f n : Nat), n < f →
    natDecAux f n ≠ [] ∧
    (∀ c ∈ natDecAux f n, c.isDigit = true ∧ c.isWhitespace = false ∧
       c ≠ '+' ∧ c ≠ '-' ∧ (c != '_') = true) ∧
    digitsVal (natDecAux f n) = n := by
  intro f
  induction f with
  | zero => intro n hn; omega
  | succ f ih =>
    intro n hn
    by_cases h10 : n < 10
    · refine ⟨by simp [natDecAux, h10], ?_, ?_⟩
      · intro c hc
        simp [natDecAux, h10] at hc
        subst hc
        have := digitChar_props n h10
        tauto
      · have := (digitChar_props n h10).2.2.2.2.2
        simp only [natDecAux, h10, if_true, digitsVal, List.foldl_cons,
          List.foldl_nil, this]
        omega
    · have hdiv : n / 10 < f := by
        have h1 : n / 10 < n := Nat.div_lt_self (by omega) (by omega)
        omega
      obtain ⟨hne, hdig, hval⟩ := ih (n / 10) hdiv
      have hmod : n % 10 < 10 := Nat.mod_lt _ (by omega)
      refine ⟨by simp [natDecAux, h10], ?_, ?_⟩
      · intro c hc
        simp [natDecAux, h10] at hc
        rcases hc with hc | hc
        · exact hdig c hc
        · subst hc
          have := digitChar_props (n % 10) hmod
          tauto
      · have hdc := (digitChar_props (n % 10) hmod).2.2.2.2.2
        simp [natDecAux, h10, digitsVal_append, hval, hdc]
        omega

/-- A list none of whose members satisfies the predicate is untouched by
dropWhile. -/
lemma dropWhile_eq_self_of_not {p : α → Bool} {l : List α}
    (h : ∀ c ∈ l, p c = false) : l.dropWhile p = l := by
  cases l with
  | nil => rfl
  | cons x xs =>
    have : p x = false := h x (by simp)
    simp [List.dropWhile_cons, this]

/-- Trimming is the identity on lists with no whitespace members. -/
lemma trimWs_eq_self {l : List Char}
    (h : ∀ c ∈ l, c.isWhitespace = false) : trimWs l = l := by
  unfold trimWs
  rw [dropWhile_eq_self_of_not h]
  rw [dropWhile_eq_self_of_not (by intro c hc; exact h c (by
    simpa using hc))]
  exact l.reverse_reverse

/-- Converting a literal character list back to a string is the identity. -/
lemma toList_mk (l : List Char) : (String.mk l).toList = l := rfl

/-- String append concatenates the character lists. -/
lemma toList_append (a b : String) : (a ++ b).toList = a.toList ++ b.toList := by
  cases a; cases b; rfl

/-- parseDigits accepts the decimal expansion and returns the number. -/
lemma parseDigits_natDecAux (n : Nat) :
    parseDigits (natDecAux (n + 1) n) = some n := by
  obtain ⟨hne, hdig, hval⟩ := natDecAux_spec (n + 1) n (by omega)
  have hall : (natDecAux (n + 1) n).all (fun c => c.isDigit) = true := by
    rw [List.all_eq_true]; intro c hc; exact (hdig c hc).1
  have hemp : (natDecAux (n + 1) n).isEmpty = false := by
    cases hx : natDecAux (n + 1) n with
    | nil => exact absurd hx hne
    | cons y ys => rfl
  simp [parseDigits, hall, hemp, hval]

/-- Python int() reads back the decimal string of a natural number. -/
lemma pyInt_natDec (n : Nat) : pyInt (natDec n) = some (n : Int) := by
  obtain ⟨hne, hdig, _⟩ := natDecAux_spec (n + 1) n (by omega)
  have htrim : trimWs (natDec n).toList = natDecAux (n + 1) n := by
    have : (natDec n).toList = natDecAux (n + 1) n := toList_mk _
    rw [this]
    exact trimWs_eq_self (fun c hc => (hdig c hc).2.1)
  unfold pyInt
  rw [htrim]
  cases hx : natDecAux (n + 1) n with
  | nil => exact absurd hx hne
  | cons c rest =>
    have hc := hdig c (by rw [hx]; simp)
    have h1 : ¬ (c = '+') := hc.2.2.1
    have h2 : ¬ (c = '-') := hc.2.2.2.1
    simp only [h1, h2, if_false]
    rw [← hx, parseDigits_natDecAux n]
    rfl

/-- Python int() reads back the decimal string of any integer. -/
lemma pyInt_intDec (i : Int) : pyInt (intDec i) = some i := by
  cases i with
  | ofNat n => exact pyInt_natDec n
  | negSucc n =>
    obtain ⟨hne, hdig, _⟩ := natDecAux_spec (n + 1 + 1) (n + 1) (by omega)
    have hlist : (intDec (Int.negSucc n)).toList = '-' :: natDecAux (n + 2) (n + 1) := by
      show (("-" : String) ++ natDec (n + 1)).toList = _
      rw [toList_append]
      rfl
    have htrim : trimWs (intDec (Int.negSucc n)).toList =
        '-' :: natDecAux (n + 2) (n + 1) := by
      rw [hlist]
      apply trimWs_eq_self
      intro c hc
      rcases List.mem_cons.mp hc with hc | hc
      · subst hc; decide
      · exact (hdig c hc).2.1
    unfold pyInt
    rw [htrim]
    simp only [reduceCtorEq, reduceIte, if_true, if_false]
    have : parseDigits (natDecAux (n + 2) (n + 1)) = some (n + 1) :=
      parseDigits_natDecAux (n + 1)
    rw [this]
    simp [Int.negSucc_eq]

/-- The initial value bounds a foldl of max. -/
lemma le_foldl_max : ∀ (xs : List Int) (a : Int), a ≤ xs.foldl max a := by
  intro xs
  induction xs with
  | nil => intro a; simp
  | cons x xs ih =>
    intro a
    calc a ≤ max a x := le_max_left a x
    _ ≤ xs.foldl max (max a x) := ih (max a x)
    _ = (x :: xs).foldl max a := rfl

/-- Every member bounds a foldl of max from below. -/
lemma mem_le_foldl_max : ∀ (xs : List Int) (a x : Int), x ∈ xs →
    x ≤ xs.foldl max a := by
  intro xs
  induction xs with
  | nil => intro a x hx; simp at hx
  | cons y ys ih =>
    intro a x hx
    rcases List.mem_cons.mp hx with hx | hx
    · subst hx
      calc x ≤ max a x := le_max_right a x
      _ ≤ ys.foldl max (max a x) := le_foldl_max ys (max a x)
    · exact ih (max a y) x hx

/-- A foldl of max is the initial value or some member. -/
lemma foldl_max_choice : ∀ (xs : List Int) (a : Int),
    xs.foldl max a = a ∨ xs.foldl max a ∈ xs := by
  intro xs
  induction xs with
  | nil => intro a; left; rfl
  | cons x xs ih =>
    intro a
    rcases ih (max a x) with h | h
    · rcases max_choice a x with hm | hm
      · left; show xs.foldl max (max a x) = a; rw [h, hm]
      · right; show xs.foldl max (max a x) ∈ x :: xs
        rw [h, hm]; simp
    · right; exact List.mem_cons_of_mem _ h

/-- Every revision in the ledger is at most the head revision. -/
lemma rev_le_head {L : List LedgerRow} {r : LedgerRow} (h : r ∈ L) :
    r.revision ≤ getLatestRevision L := by
  cases L with
  | nil => simp at h
  | cons x xs =>
    rcases List.mem_cons.mp h with hr | hr
    · subst hr; exact le_foldl_max _ _
    · exact mem_le_foldl_max _ _ _ (List.mem_map_of_mem (fun x => x.revision) hr)

/-- On a nonempty ledger the head revision is one of the revisions. -/
lemma head_mem_revs {L : List LedgerRow} (h : L ≠ []) :
    getLatestRevision L ∈ L.map (fun r => r.revision) := by
  cases L with
  | nil => exact absurd rfl h
  | cons x xs =>
    show (xs.map (fun r => r.revision)).foldl max x.revision ∈ _
    rcases foldl_max_choice (xs.map (fun r => r.revision)) x.revision with hc | hc
    · rw [hc]; simp
    · exact List.mem_cons_of_mem _ hc

/-- Appending one row takes the max of head revision and the new revision
(on a nonempty ledger). -/
lemma head_append_one {L : List LedgerRow} (r : LedgerRow) (h : L ≠ []) :
    getLatestRevision (L ++ [r]) = max (getLatestRevision L) r.revision := by
  cases L with
  | nil => exact absurd rfl h
  | cons x xs =>
    show (List.map (fun y => y.revision) (xs ++ [r])).foldl max x.revision = _
    rw [List.map_append, List.foldl_append]
    rfl

/-- Appending a row whose revision exceeds the head makes it the new head. -/
lemma head_append_gt {L : List LedgerRow} {i : Int} (n : String)
    (h : getLatestRevision L < i) :
    getLatestRevision (L ++ [⟨n, i⟩]) = i := by
  cases hx : L with
  | nil => rfl
  | cons y ys =>
    rw [← hx, head_append_one ⟨n, i⟩ (by rw [hx]; simp)]
    exact max_eq_right (le_of_lt h)

/-- A ledger with nonzero head revision is nonempty. -/
lemma ne_nil_of_head_ne {L : List LedgerRow} (h : getLatestRevision L ≠ 0) :
    L ≠ [] := by
  intro he; subst he; exact h rfl

/-- A script whose index is at most the current head revision is skipped. -/
lemma runMigration_skip {files : List MFile} {i : Int} {n : String}
    {s : MigState} (h : i ≤ getLatestRevision s.ledger) :
    runMigration files i n s = Except.ok s := by
  simp [runMigration, h]

/-- A pending script whose file is missing raises the read error. -/
lemma runMigration_nofile {files : List MFile} {i : Int} {n : String}
    {s : MigState} (h : ¬ i ≤ getLatestRevision s.ledger)
    (hlf : lookupFile files n = none) :
    runMigration files i n s = Except.error ("IOError: " ++ n) := by
  simp [runMigration, h, hlf]

/-- A pending script with empty content raises the empty-script error. -/
lemma runMigration_empty {files : List MFile} {i : Int} {n : String}
    {s : MigState} (h : ¬ i ≤ getLatestRevision s.ledger)
    (hlf : lookupFile files n = some "") :
    runMigration files i n s =
      Except.error ("Migration \"" ++ n ++ "\" is empty") := by
  simp [runMigration, h, hlf]

/-- A pending script with nonempty content is executed and recorded. -/
lemma runMigration_apply {files : List MFile} {i : Int} {n : String}
    {s : MigState} {sql : String} (h : ¬ i ≤ getLatestRevision s.ledger)
    (hlf : lookupFile files n = some sql) (hsql : sql ≠ "") :
    runMigration files i n s =
      Except.ok ⟨s.ledger ++ [⟨n, i⟩], s.executed ++ [sql]⟩ := by
  simp [runMigration, h, hlf, hsql]

/-- Unfolding one step of the migration loop. -/
lemma runList_cons (files : List MFile) (i : Int) (n : String)
    (rest : List (Int × String)) (s : MigState) :
    runList files ((i, n) :: rest) s =
      match runMigration files i n s with
      | Except.error e => (s, some e)
      | Except.ok s' => runList files rest s' := rfl

/-- Step equation: a skipped script leaves the loop state unchanged. -/
lemma runList_skip {files : List MFile} {i : Int} {n : String}
    {rest : List (Int × String)} {s : MigState}
    (h : i ≤ getLatestRevision s.ledger) :
    runList files ((i, n) :: rest) s = runList files rest s := by
  rw [runList_cons, runMigration_skip h]

/-- Step equation: an applied script extends the ledger and the log. -/
lemma runList_apply {files : List MFile} {i : Int} {n : String}
    {rest : List (Int × String)} {s : MigState} {sql : String}
    (h : ¬ i ≤ getLatestRevision s.ledger)
    (hlf : lookupFile files n = some sql) (hsql : sql ≠ "") :
    runList files ((i, n) :: rest) s =
      runList files rest ⟨s.ledger ++ [⟨n, i⟩], s.executed ++ [sql]⟩ := by
  rw [runList_cons, runMigration_apply h hlf hsql]

/-- Step equation: an empty pending script stops the loop with its error. -/
lemma runList_empty_stop {files : List MFile} {i : Int} {n : String}
    {rest : List (Int × String)} {s : MigState}
    (h : ¬ i ≤ getLatestRevision s.ledger)
    (hlf : lookupFile files n = some "") :
    runList files ((i, n) :: rest) s =
      (s, some ("Migration \"" ++ n ++ "\" is empty")) := by
  rw [runList_cons, runMigration_empty h hlf]

/-- The head revision never decreases along the migration loop. -/
lemma head_mono_runList (files : List MFile) : ∀ (scripts : List (Int × String))
    (s : MigState), getLatestRevision s.ledger ≤
      getLatestRevision ((runList files scripts s).1).ledger := by
  intro scripts
  induction scripts with
  | nil => intro s; exact le_refl _
  | cons p rest ih =>
    obtain ⟨i, n⟩ := p
    intro s
    by_cases h : i ≤ getLatestRevision s.ledger
    · rw [runList_cons, runMigration_skip h]
      exact ih s
    · cases hlf : lookupFile files n with
      | none => rw [runList_cons, runMigration_nofile h hlf]
      | some sql =>
        by_cases hsql : sql = ""
        · subst hsql
          rw [runList_cons, runMigration_empty h hlf]
        · rw [runList_cons, runMigration_apply h hlf hsql]
          refine le_trans ?_ (ih ⟨s.ledger ++ [⟨n, i⟩], s.executed ++ [sql]⟩)
          show getLatestRevision s.ledger ≤ getLatestRevision (s.ledger ++ [⟨n, i⟩])
          rw [head_append_gt n (lt_of_not_le h)]
          exact le_of_lt (lt_of_not_le h)

/-- Running the migration loop a second time from its own final state changes
nothing and reproduces the same outcome. -/
lemma runList_self (files : List MFile) : ∀ (scripts : List (Int × String))
    (s : MigState),
    runList files scripts ((runList files scripts s).1) =
      runList files scripts s := by
  intro scripts
  induction scripts with
  | nil => intro s; rfl
  | cons p rest ih =>
    obtain ⟨i, n⟩ := p
    intro s
    by_cases h : i ≤ getLatestRevision s.ledger
    · have hstep : runList files ((i, n) :: rest) s = runList files rest s := by
        rw [runList_cons, runMigration_skip h]
      rw [hstep]
      have hskip2 : i ≤ getLatestRevision ((runList files rest s).1).ledger :=
        le_trans h (head_mono_runList files rest s)
      rw [runList_cons, runMigration_skip hskip2]
      exact ih s
    · cases hlf : lookupFile files n with
      | none =>
        have hstep : runList files ((i, n) :: rest) s =
            (s, some ("IOError: " ++ n)) := by
          rw [runList_cons, runMigration_nofile h hlf]
        rw [hstep]
        show runList files ((i, n) :: rest) s = (s, some ("IOError: " ++ n))
        exact hstep
      | some sql =>
        by_cases hsql : sql = ""
        · subst hsql
          have hstep : runList files ((i, n) :: rest) s =
              (s, some ("Migration \"" ++ n ++ "\" is empty")) := by
            rw [runList_cons, runMigration_empty h hlf]
          rw [hstep]
          show runList files ((i, n) :: rest) s =
            (s, some ("Migration \"" ++ n ++ "\" is empty"))
          exact hstep
        · have hstep : runList files ((i, n) :: rest) s =
              runList files rest ⟨s.ledger ++ [⟨n, i⟩],
                s.executed ++ [sql]⟩ := by
            rw [runList_cons, runMigration_apply h hlf hsql]
          rw [hstep]
          have hi : getLatestRevision (s.ledger ++ [⟨n, i⟩]) = i :=
            head_append_gt n (lt_of_not_le h)
          have hskip2 : i ≤ getLatestRevision
              ((runList files rest ⟨s.ledger ++ [⟨n, i⟩],
                s.executed ++ [sql]⟩).1).ledger := by
            refine le_trans ?_ (head_mono_runList files rest _)
            exact le_of_eq hi.symm
          rw [runList_cons, runMigration_skip hskip2]
          exact ih _

/-- The migration loop only ever appends to the ledger. -/
lemma runList_extends (files : List MFile) : ∀ (scripts : List (Int × String))
    (s : MigState), ∃ t, ((runList files scripts s).1).ledger =
      s.ledger ++ t := by
  intro scripts
  induction scripts with
  | nil => intro s; exact ⟨[], by simp [runList]⟩
  | cons p rest ih =>
    obtain ⟨i, n⟩ := p
    intro s
    by_cases h : i ≤ getLatestRevision s.ledger
    · rw [runList_cons, runMigration_skip h]; exact ih s
    · cases hlf : lookupFile files n with
      | none =>
        rw [runList_cons, runMigration_nofile h hlf]
        exact ⟨[], by simp⟩
      | some sql =>
        by_cases hsql : sql = ""
        · subst hsql
          rw [runList_cons, runMigration_empty h hlf]
          exact ⟨[], by simp⟩
        · rw [runList_cons, runMigration_apply h hlf hsql]
          obtain ⟨t, ht⟩ := ih ⟨s.ledger ++ [⟨n, i⟩], s.executed ++ [sql]⟩
          refine ⟨(⟨n, i⟩ : LedgerRow) :: t, ?_⟩
          rw [ht]
          simp

/-- The migration loop preserves strict increase of the ledger revisions. -/
lemma runList_chain (files : List MFile) : ∀ (scripts : List (Int × String))
    (s : MigState),
    List.Chain' (· < ·) (s.ledger.map (fun r => r.revision)) →
    List.Chain' (· < ·)
      (((runList files scripts s).1).ledger.map (fun r => r.revision)) := by
  intro scripts
  induction scripts with
  | nil => intro s h; exact h
  | cons p rest ih =>
    obtain ⟨i, n⟩ := p
    intro s h
    by_cases hle : i ≤ getLatestRevision s.ledger
    · rw [runList_cons, runMigration_skip hle]; exact ih s h
    · cases hlf : lookupFile files n with
      | none =>
        rw [runList_cons, runMigration_nofile hle hlf]
        exact h
      | some sql =>
        by_cases hsql : sql = ""
        · subst hsql
          rw [runList_cons, runMigration_empty hle hlf]
          exact h
        · rw [runList_cons, runMigration_apply hle hlf hsql]
          refine ih _ ?_
          show List.Chain' (· < ·)
            ((s.ledger ++ [(⟨n, i⟩ : LedgerRow)]).map (fun r => r.revision))
          rw [List.map_append]
          rw [List.chain'_append]
          refine ⟨h, List.chain'_singleton _, ?_⟩
          intro x hx y hy
          simp only [List.head?_cons, List.map_cons, List.map_nil,
            Option.mem_def, Option.some.injEq] at hy
          subst hy
          rw [List.getLast?_map] at hx
          simp only [Option.mem_def, Option.map_eq_some'] at hx
          obtain ⟨r, hr, hrx⟩ := hx
          subst hrx
          calc r.revision ≤ getLatestRevision s.ledger :=
                rev_le_head (List.mem_of_getLast?_eq_some hr)
          _ < i := lt_of_not_le hle

/-- Starting from a nonnegative head revision, every row the migration loop
adds has a positive revision. -/
lemma runList_new_pos (files : List MFile) : ∀ (scripts : List (Int × String))
    (s : MigState), 0 ≤ getLatestRevision s.ledger →
    ∀ r ∈ ((runList files scripts s).1).ledger, r ∉ s.ledger →
      1 ≤ r.revision := by
  intro scripts
  induction scripts with
  | nil => intro s _ r hr hnr; exact absurd hr hnr
  | cons p rest ih =>
    obtain ⟨i, n⟩ := p
    intro s hs r hr hnr
    by_cases hle : i ≤ getLatestRevision s.ledger
    · rw [runList_cons, runMigration_skip hle] at hr
      exact ih s hs r hr hnr
    · cases hlf : lookupFile files n with
      | none =>
        rw [runList_cons, runMigration_nofile hle hlf] at hr
        exact absurd hr hnr
      | some sql =>
        by_cases hsql : sql = ""
        · subst hsql
          rw [runList_cons, runMigration_empty hle hlf] at hr
          exact absurd hr hnr
        · rw [runList_cons, runMigration_apply hle hlf hsql] at hr
          have hipos : 1 ≤ i := by
            have := lt_of_not_le hle
            omega
          have hs' : (0 : Int) ≤
              getLatestRevision (s.ledger ++ [⟨n, i⟩]) := by
            rw [head_append_gt n (lt_of_not_le hle)]
            omega
          by_cases hmem : r ∈ s.ledger ++ [⟨n, i⟩]
          · rcases List.mem_append.mp hmem with hm | hm
            · exact absurd hm hnr
            · simp only [List.mem_singleton] at hm
              subst hm
              exact hipos
          · exact ih ⟨s.ledger ++ [⟨n, i⟩], s.executed ++ [sql]⟩ hs' r hr hmem

/-- If a first batch of scripts completes without error, running the
concatenation runs the second batch from the first batch's final state. -/
lemma runList_append_ok (files : List MFile) :
    ∀ (pre : List (Int × String)) (bs : List (Int × String))
    (s s' : MigState), runList files pre s = (s', none) →
    runList files (pre ++ bs) s = runList files bs s' := by
  intro pre
  induction pre with
  | nil =>
    intro bs s s' h
    simp only [runList] at h
    have hs : s = s' := congrArg Prod.fst h
    subst hs
    rfl
  | cons p rest ih =>
    obtain ⟨i, n⟩ := p
    intro bs s s' h
    rw [List.cons_append]
    rw [runList_cons] at h ⊢
    cases hm : runMigration files i n s with
    | error e =>
      rw [hm] at h
      exact absurd (congrArg Prod.snd h) (by simp)
    | ok s₀ =>
      rw [hm] at h
      exact ih bs s₀ s' h

/-- Any state this system produces has a nonnegative head revision. -/
lemma reachable_nonneg {s : MigState} (h : Reachable s) :
    0 ≤ getLatestRevision s.ledger := by
  induction h with
  | init => exact le_refl 0
  | step files s hs ih =>
    unfold runMigrations
    cases hd : getMigrationScripts (files.map (fun f => f.name)) with
    | error e => exact ih
    | ok scripts => exact le_trans ih (head_mono_runList files scripts s)

/-- The code-point order on character lists is total. -/
lemma charListLe_total : ∀ (a b : List Char), charListLe a b = false →
    charListLe b a = true := by
  intro a
  induction a with
  | nil => intro b h; simp [charListLe] at h
  | cons x xs ih =>
    intro b h
    cases b with
    | nil => rfl
    | cons y ys =>
      simp only [charListLe] at h ⊢
      by_cases h1 : x.toNat < y.toNat
      · rw [if_pos h1] at h
        exact absurd h (by simp)
      · rw [if_neg h1] at h
        by_cases h2 : x.toNat = y.toNat
        · rw [if_pos h2] at h
          have hny : ¬ y.toNat < x.toNat := by omega
          rw [if_neg hny, if_pos h2.symm]
          exact ih ys h
        · have hy : y.toNat < x.toNat := by omega
          rw [if_pos hy]

/-- The tuple order used for sorting is total. -/
lemma pairLe_total (a b : Int × String) (h : pairLe a b = false) :
    pairLe b a = true := by
  unfold pairLe at h ⊢
  by_cases h1 : a.1 < b.1
  · rw [if_pos h1] at h
    exact absurd h (by simp)
  · rw [if_neg h1] at h
    by_cases h2 : a.1 = b.1
    · rw [if_pos h2] at h
      have hnb : ¬ b.1 < a.1 := by omega
      rw [if_neg hnb, if_pos h2.symm]
      exact charListLe_total _ _ h
    · have hb : b.1 < a.1 := by omega
      rw [if_pos hb]

/-- The tuple order respects the first component. -/
lemma pairLe_fst {a b : Int × String} (h : pairLe a b = true) : a.1 ≤ b.1 := by
  unfold pairLe at h
  by_cases h1 : a.1 < b.1
  · exact le_of_lt h1
  · by_cases h2 : a.1 = b.1
    · exact le_of_eq h2
    · rw [if_neg h1, if_neg h2] at h
      exact absurd h (by simp)

/-- Membership after insertion. -/
lemma mem_insertSorted (x y : Int × String) : ∀ (l : List (Int × String)),
    (y ∈ insertSorted x l ↔ y = x ∨ y ∈ l) := by
  intro l
  induction l with
  | nil => simp [insertSorted]
  | cons z zs ih =>
    simp only [insertSorted]
    by_cases h : pairLe x z = true
    · rw [if_pos h]
      simp only [List.mem_cons]
    · rw [if_neg h]
      simp only [List.mem_cons, ih]
      tauto

/-- Membership is preserved by the sort. -/
lemma mem_sortPairs (y : Int × String) : ∀ (l : List (Int × String)),
    (y ∈ sortPairs l ↔ y ∈ l) := by
  intro l
  induction l with
  | nil => simp [sortPairs]
  | cons z zs ih =>
    show y ∈ insertSorted z (sortPairs zs) ↔ _
    rw [mem_insertSorted, ih, List.mem_cons]

/-- The head after insertion is the inserted pair or the previous head. -/
lemma head?_insertSorted (x : Int × String) (l : List (Int × String)) :
    (insertSorted x l).head? = some x ∨ (insertSorted x l).head? = l.head? := by
  cases l with
  | nil => left; rfl
  | cons v vs =>
    simp only [insertSorted]
    by_cases h : pairLe x v = true
    · left
      rw [if_pos h]
      rfl
    · right
      rw [if_neg h]
      rfl

/-- Insertion into a sorted list keeps it sorted. -/
lemma chain'_insertSorted (x : Int × String) :
    ∀ (l : List (Int × String)),
    List.Chain' (fun a b => pairLe a b = true) l →
    List.Chain' (fun a b => pairLe a b = true) (insertSorted x l) := by
  intro l
  induction l with
  | nil => intro _; simp [insertSorted]
  | cons y ys ih =>
    intro h
    rw [List.chain'_cons'] at h
    obtain ⟨hhead, htail⟩ := h
    simp only [insertSorted]
    by_cases hp : pairLe x y = true
    · rw [if_pos hp]
      rw [List.chain'_cons']
      refine ⟨?_, List.chain'_cons'.mpr ⟨hhead, htail⟩⟩
      intro z hz
      simp only [List.head?_cons, Option.mem_def, Option.some.injEq] at hz
      subst hz
      exact hp
    · rw [if_neg hp]
      rw [List.chain'_cons']
      refine ⟨?_, ih htail⟩
      intro z hz
      have hyx : pairLe y x = true := pairLe_total x y (by
        cases hxy : pairLe x y with
        | false => rfl
        | true => exact absurd hxy hp)
      rcases head?_insertSorted x ys with hh | hh
      · rw [hh] at hz
        simp only [Option.mem_def, Option.some.injEq] at hz
        subst hz
        exact hyx
      · rw [hh] at hz
        exact hhead z hz

/-- The sort produces a sorted list. -/
lemma chain'_sortPairs (l : List (Int × String)) :
    List.Chain' (fun a b => pairLe a b = true) (sortPairs l) := by
  induction l with
  | nil => simp [sortPairs]
  | cons x xs ih => exact chain'_insertSorted x (sortPairs xs) ih

/-- A successful parse pairs the parsed index with the very file name. -/
lemma parseScript_ok {m : String} {p : Int × String}
    (h : parseScript m = Except.ok p) :
    p.2 = m ∧ pyInt (leadingToken m) = some p.1 := by
  unfold parseScript at h
  cases hp : pyInt (leadingToken m) with
  | none => rw [hp] at h; exact absurd h (by simp)
  | some i =>
    rw [hp] at h
    have : (i, m) = p := by
      injection h
    subst this
    exact ⟨rfl, rfl⟩

/-- Every name given to a successful collection appears among the pairs. -/
lemma collect_mem : ∀ (ns : List String) (ps : List (Int × String))
    (n : String), collectScripts ns = Except.ok ps → n ∈ ns →
    ∃ i, (i, n) ∈ ps := by
  intro ns
  induction ns with
  | nil => intro ps n _ hn; simp at hn
  | cons m ms ih =>
    intro ps n h hn
    unfold collectScripts at h
    cases hp : parseScript m with
    | error e => rw [hp] at h; exact absurd h (by simp)
    | ok p =>
      rw [hp] at h
      cases hc : collectScripts ms with
      | error e => rw [hc] at h; exact absurd h (by simp)
      | ok ps' =>
        rw [hc] at h
        have hps : p :: ps' = ps := by injection h
        subst hps
        rcases List.mem_cons.mp hn with hn | hn
        · subst hn
          refine ⟨p.1, ?_⟩
          have h2 := (parseScript_ok hp).1
          have : (p.1, n) = p := by
            rw [← h2]
          rw [this]
          simp
        · obtain ⟨i, hi⟩ := ih ps' n hc hn
          exact ⟨i, List.mem_cons_of_mem _ hi⟩

/-- Every pair a successful collection returns is the parse of its name. -/
lemma collect_sound : ∀ (ns : List String) (ps : List (Int × String)),
    collectScripts ns = Except.ok ps →
    ∀ p ∈ ps, parseScript p.2 = Except.ok p := by
  intro ns
  induction ns with
  | nil =>
    intro ps h p hp
    unfold collectScripts at h
    have : ([] : List (Int × String)) = ps := by injection h
    subst this
    simp at hp
  | cons m ms ih =>
    intro ps h p hp
    unfold collectScripts at h
    cases hq : parseScript m with
    | error e => rw [hq] at h; exact absurd h (by simp)
    | ok q =>
      rw [hq] at h
      cases hc : collectScripts ms with
      | error e => rw [hc] at h; exact absurd h (by simp)
      | ok ps' =>
        rw [hc] at h
        have hps : q :: ps' = ps := by injection h
        subst hps
        rcases List.mem_cons.mp hp with hp | hp
        · subst hp
          rw [(parseScript_ok hq).1]
          exact hq
        · exact ih ps' hc p hp

/-- The collection fails with the error of the first unparsable name. -/
lemma collect_first_bad : ∀ (ns : List String) (bad : String),
    ns.find? (fun n => (pyInt (leadingToken n)).isNone) = some bad →
    collectScripts ns =
      Except.error ("Migration \"" ++ bad ++ "\" must start with a number") := by
  intro ns
  induction ns with
  | nil => intro bad h; simp at h
  | cons m ms ih =>
    intro bad h
    cases hp : pyInt (leadingToken m) with
    | none =>
      have hfind : m = bad := by
        rw [List.find?_cons_of_pos _ (by simp [hp])] at h
        injection h
      subst hfind
      unfold collectScripts parseScript
      rw [hp]
    | some i =>
      have hfind : ms.find? (fun n => (pyInt (leadingToken n)).isNone) =
          some bad := by
        rw [List.find?_cons_of_neg _ (by simp [hp])] at h
        exact h
      unfold collectScripts parseScript
      rw [hp, ih bad hfind]

/-- Successful discovery returns a sorted list. -/
lemma getMigrationScripts_chain {names : List String}
    {l : List (Int × String)} (h : getMigrationScripts names = Except.ok l) :
    List.Chain' (fun a b => pairLe a b = true) l := by
  unfold getMigrationScripts at h
  cases hc : collectScripts (names.filter endsWithSql) with
  | error e => rw [hc] at h; exact absurd h (by simp)
  | ok ps =>
    rw [hc] at h
    have : sortPairs ps = l := by injection h
    subst this
    exact chain'_sortPairs ps

/-- Every .sql name of the listing appears in the discovered scripts. -/
lemma getMigrationScripts_mem {names : List String}
    {l : List (Int × String)} {n : String}
    (h : getMigrationScripts names = Except.ok l) (hn : n ∈ names)
    (hsql : endsWithSql n = true) : ∃ i, (i, n) ∈ l := by
  unfold getMigrationScripts at h
  cases hc : collectScripts (names.filter endsWithSql) with
  | error e => rw [hc] at h; exact absurd h (by simp)
  | ok ps =>
    rw [hc] at h
    have hl : sortPairs ps = l := by injection h
    subst hl
    obtain ⟨i, hi⟩ := collect_mem _ ps n hc (List.mem_filter.mpr ⟨hn, hsql⟩)
    exact ⟨i, (mem_sortPairs _ ps).mpr hi⟩

/-- Every pair of the discovered scripts is the parse of its name. -/
lemma getMigrationScripts_sound {names : List String}
    {l : List (Int × String)} {p : Int × String}
    (h : getMigrationScripts names = Except.ok l) (hp : p ∈ l) :
    parseScript p.2 = Except.ok p := by
  unfold getMigrationScripts at h
  cases hc : collectScripts (names.filter endsWithSql) with
  | error e => rw [hc] at h; exact absurd h (by simp)
  | ok ps =>
    rw [hc] at h
    have hl : sortPairs ps = l := by injection h
    subst hl
    exact collect_sound _ ps hc p ((mem_sortPairs _ ps).mp hp)

/-- Every member's index is at most the maximum index. -/
lemma mem_le_maxIndexD {l : List (Int × String)} {p : Int × String}
    (h : p ∈ l) : p.1 ≤ maxIndexD l := by
  cases l with
  | nil => simp at h
  | cons x xs =>
    rcases List.mem_cons.mp h with hp | hp
    · subst hp; exact le_foldl_max _ _
    · exact mem_le_foldl_max _ _ _ (List.mem_map_of_mem (fun q => q.1) hp)

/-- On a sorted list the last pair's index is the maximum index. -/
lemma lastIndexD_eq_max : ∀ (l : List (Int × String)),
    List.Chain' (fun a b => pairLe a b = true) l →
    lastIndexD l = maxIndexD l := by
  intro l
  induction l with
  | nil => intro _; rfl
  | cons x t ih =>
    intro h
    cases t with
    | nil => rfl
    | cons y t' =>
      rw [List.chain'_cons] at h
      obtain ⟨hxy, htail⟩ := h
      have h1 : lastIndexD (x :: y :: t') = lastIndexD (y :: t') := by
        unfold lastIndexD
        rw [List.getLast?_cons_cons]
      have h2 : maxIndexD (x :: y :: t') = maxIndexD (y :: t') := by
        show (List.map (fun q => q.1) (y :: t')).foldl max x.1 = _
        show (y.1 :: List.map (fun q => q.1) t').foldl max x.1 = _
        show (List.map (fun q => q.1) t').foldl max (max x.1 y.1) = _
        rw [max_eq_right (pairLe_fst hxy)]
        rfl
      rw [h1, h2]
      exact ih htail

/-- A name built by appending the extension ends with the extension. -/
lemma endsWithSql_append (x : String) : endsWithSql (x ++ ".sql") = true := by
  have h : (x ++ ".sql").toList.reverse =
      'l' :: 'q' :: 's' :: '.' :: x.toList.reverse := by
    rw [toList_append]
    show (x.toList ++ ['.', 's', 'q', 'l']).reverse = _
    rw [List.reverse_append]
    rfl
  unfold endsWithSql
  rw [h]
  rfl

/-- takeWhile collects exactly the part before the first underscore. -/
lemma takeWhile_append_stop {xs : List Char} (r : List Char)
    (h : ∀ c ∈ xs, (c != '_') = true) :
    (xs ++ '_' :: r).takeWhile (fun c => c != '_') = xs := by
  induction xs with
  | nil => simp
  | cons c cs ih =>
    have hc : (c != '_') = true := h c (by simp)
    simp only [List.cons_append, List.takeWhile_cons, hc, if_true]
    rw [ih (fun d hd => h d (List.mem_cons_of_mem _ hd))]

/-- No character of a printed integer is an underscore. -/
lemma intDec_no_underscore (i : Int) :
    ∀ c ∈ (intDec i).toList, (c != '_') = true := by
  cases i with
  | ofNat n =>
    intro c hc
    have := natDecAux_spec (n + 1) n (by omega)
    exact (this.2.1 c hc).2.2.2.2
  | negSucc n =>
    intro c hc
    have hl : (intDec (Int.negSucc n)).toList =
        '-' :: natDecAux (n + 2) (n + 1) := by
      show (("-" : String) ++ natDec (n + 1)).toList = _
      rw [toList_append]
      rfl
    rw [hl] at hc
    rcases List.mem_cons.mp hc with hc | hc
    · subst hc; rfl
    · exact ((natDecAux_spec (n + 2) (n + 1) (by omega)).2.1 c hc).2.2.2.2

/-- A string back from its own character list. -/
lemma mk_toList (s : String) : String.mk s.toList = s := rfl

/-- The leading token of a printed integer followed by an underscore is the
printed integer itself. -/
lemma leadingToken_prefixed {s : String} {i : Int} {r : List Char}
    (h : s.toList = (intDec i).toList ++ '_' :: r) :
    leadingToken s = intDec i := by
  unfold leadingToken
  rw [h, takeWhile_append_stop r (intDec_no_underscore i)]
  exact mk_toList _

/-- Claim C3: running run_migrations twice in succession with no new scripts
added between the runs yields the same final head revision as running it
once, and the second run writes nothing: it reproduces the first run's final
state and outcome exactly. -/
theorem run_migrations_idempotent (files : List MFile) (s : MigState) :
    runMigrations files ((runMigrations files s).1) = runMigrations files s := by
  unfold runMigrations
  cases hd : getMigrationScripts (files.map (fun f => f.name)) with
  | error e => rfl
  | ok scripts => exact runList_self files scripts s

/-- Claim C4: a script whose index is at most the head revision read at the
moment it is evaluated is skipped: the evaluation step executes no SQL,
writes no ledger row and leaves the state unchanged, and the loop continues
with the rest; the head is the one freshly read from the current state. -/
theorem skip_applied_scripts (files : List MFile) (i : Int) (n : String)
    (rest : List (Int × String)) (s : MigState)
    (h : i ≤ getLatestRevision s.ledger) :
    runList files ((i, n) :: rest) s = runList files rest s := by
  rw [runList_cons, runMigration_skip h]

theorem skip_applied_scripts_witness :
    runList [] [((0 : Int), "0_x.sql")] ⟨[], []⟩ = runList [] [] ⟨[], []⟩ :=
  skip_applied_scripts [] 0 "0_x.sql" [] ⟨[], []⟩ (by decide)

/-- Claim C2: starting from any ledger whose revisions are strictly
increasing (the invariant every state produced by this system has),
run_migrations only appends rows and keeps the ledger revisions strictly
increasing, for every filesystem listing order of the scripts. -/
theorem ledger_revisions_strictly_increasing (files : List MFile)
    (s : MigState)
    (h : List.Chain' (· < ·) (s.ledger.map (fun r => r.revision))) :
    List.Chain' (· < ·)
      (((runMigrations files s).1).ledger.map (fun r => r.revision)) ∧
    ∃ t, ((runMigrations files s).1).ledger = s.ledger ++ t := by
  unfold runMigrations
  cases hd : getMigrationScripts (files.map (fun f => f.name)) with
  | error e => exact ⟨h, ⟨[], by simp⟩⟩
  | ok scripts =>
    exact ⟨runList_chain files scripts s h, runList_extends files scripts s⟩

theorem ledger_revisions_strictly_increasing_witness :
    List.Chain' (· < ·)
      (((runMigrations [⟨"1_a.sql", "select 1;"⟩] ⟨[], []⟩).1).ledger.map
        (fun r => r.revision)) :=
  (ledger_revisions_strictly_increasing [⟨"1_a.sql", "select 1;"⟩] ⟨[], []⟩
    (by simp)).1

/-- Claim C10: in any state this system produces, the head revision is
nonnegative, so a script with index 0 is always skipped (no SQL executed, no
ledger row written, state untouched), every row a run adds has revision at
least 1, and discovery nonetheless accepts a file named 0_init.sql. -/
theorem zero_index_never_applied (s : MigState) (hs : Reachable s) :
    0 ≤ getLatestRevision s.ledger ∧
    (∀ (files : List MFile) (n : String),
      runMigration files 0 n s = Except.ok s) ∧
    (∀ (files : List MFile) (r : LedgerRow),
      r ∈ ((runMigrations files s).1).ledger → r ∉ s.ledger →
        1 ≤ r.revision) ∧
    getMigrationScripts ["0_init.sql"] = Except.ok [(0, "0_init.sql")] := by
  have h0 := reachable_nonneg hs
  refine ⟨h0, ?_, ?_, rfl⟩
  · intro files n
    exact runMigration_skip h0
  · intro files r hr hnr
    revert hr
    unfold runMigrations
    cases hd : getMigrationScripts (files.map (fun f => f.name)) with
    | error e => intro hr; exact absurd hr hnr
    | ok scripts =>
      intro hr
      exact runList_new_pos files scripts s h0 r hr hnr

theorem zero_index_never_applied_witness :
    runMigration [] 0 "0_init.sql" ⟨[], []⟩ = Except.ok ⟨[], []⟩ :=
  (zero_index_never_applied ⟨[], []⟩ Reachable.init).2.1 [] "0_init.sql"

/-- Claim C9: against a connection capability failing on every attempt,
wait_for_database raises the unreachable error exactly when the whole
attempt budget is spent - after exactly maxAttempts attempts, with one fixed
sleep interval per failed attempt (no backoff) - while against a capability
whose first success is at any attempt k within the budget it returns
immediately there, holding the new connection, after exactly k + 1 attempts
and the k fixed-interval sleeps of the failed attempts. -/
theorem wait_for_database_budget {α : Type} (attempt : Nat → Option α)
    (sleepInterval maxAttempts : Nat) (h : ∀ i, attempt i = none) :
    waitForDatabase attempt sleepInterval maxAttempts =
      (none, maxAttempts, List.replicate maxAttempts sleepInterval) ∧
    ∀ (att2 : Nat → Option α) (c : α) (k : Nat),
      (∀ i, i < k → att2 i = none) → att2 k = some c → k < maxAttempts →
      waitForDatabase att2 sleepInterval maxAttempts =
        (some c, k + 1, List.replicate k sleepInterval) := by
  constructor
  · have haux : ∀ (rem st : Nat), waitFrom attempt sleepInterval st rem =
        (none, rem, List.replicate rem sleepInterval) := by
      intro rem
      induction rem with
      | zero => intro st; rfl
      | succ rem ih =>
        intro st
        unfold waitFrom
        rw [h st]
        simp only [ih (st + 1)]
        rw [List.replicate_succ]
    exact haux maxAttempts 0
  · intro att2 c k hfail hsucc hk
    have haux2 : ∀ (k st rem : Nat), (∀ i, i < k → att2 (st + i) = none) →
        att2 (st + k) = some c → k < rem →
        waitFrom att2 sleepInterval st rem =
          (some c, k + 1, List.replicate k sleepInterval) := by
      intro k
      induction k with
      | zero =>
        intro st rem hf hs hlt
        cases rem with
        | zero => omega
        | succ r =>
          unfold waitFrom
          simp only [Nat.add_zero] at hs
          rw [hs]
          rfl
      | succ k ih =>
        intro st rem hf hs hlt
        cases rem with
        | zero => omega
        | succ r =>
          unfold waitFrom
          have h0 : att2 st = none := by
            have := hf 0 (by omega)
            simpa using this
          rw [h0]
          have hf' : ∀ i, i < k → att2 (st + 1 + i) = none := by
            intro i hi
            have := hf (i + 1) (by omega)
            rwa [show st + (i + 1) = st + 1 + i by omega] at this
          have hs' : att2 (st + 1 + k) = some c := by
            rwa [show st + (k + 1) = st + 1 + k by omega] at hs
          simp only [ih (st + 1) r hf' hs' (by omega)]
          rw [List.replicate_succ]
    exact haux2 k 0 maxAttempts
      (fun i hi => by simpa using hfail i hi) (by simpa using hsucc) hk

theorem wait_for_database_budget_witness :
    waitForDatabase (fun _ => (none : Option Nat)) 2 3 =
      (none, 3, List.replicate 3 2) ∧
    waitForDatabase (fun i => if i < 2 then none else some 7) 2 3 =
      (some 7, 2 + 1, List.replicate 2 2) :=
  ⟨(wait_for_database_budget (fun _ => (none : Option Nat)) 2 3
      (fun _ => rfl)).1,
   (wait_for_database_budget (fun _ => (none : Option Nat)) 2 3
      (fun _ => rfl)).2
     (fun i => if i < 2 then none else some 7) 7 2
     (fun i hi => if_pos hi) rfl (by omega)⟩

/-- Claim C6: when the first pending script the run reaches (all earlier
scripts having completed without error, its index above the head revision at
that point) has empty content, run_migrations fails with the error naming
that file, executes none of its SQL, writes no ledger row for it or any
later script, processes no later script, and leaves the state - and so the
head revision - exactly as it was before the failing step. -/
theorem empty_script_halts (files : List MFile) (s s' : MigState)
    (pre rest : List (Int × String)) (j : Int) (n : String)
    (hd : getMigrationScripts (files.map (fun f => f.name)) =
      Except.ok (pre ++ (j, n) :: rest))
    (hpre : runList files pre s = (s', none))
    (hj : getLatestRevision s'.ledger < j)
    (hempty : lookupFile files n = some "") :
    runMigrations files s =
      (s', some ("Migration \"" ++ n ++ "\" is empty")) := by
  unfold runMigrations
  rw [hd]
  show runList files (pre ++ (j, n) :: rest) s = _
  rw [runList_append_ok files pre ((j, n) :: rest) s s' hpre]
  rw [runList_cons, runMigration_empty (not_le.mpr hj) hempty]

theorem empty_script_halts_witness :
    runMigrations [⟨"1_a.sql", ""⟩] ⟨[], []⟩ =
      (⟨[], []⟩, some ("Migration \"" ++ "1_a.sql" ++ "\" is empty")) :=
  empty_script_halts [⟨"1_a.sql", ""⟩] ⟨[], []⟩ ⟨[], []⟩ [] [] 1 "1_a.sql"
    rfl rfl (by decide) rfl

/-- Claim C7 counterexample: against a database with no ledger table at all,
head revision does not return 0 - the undefined-table error of the probe
query propagates out of the fetch. -/
theorem head_revision_no_table_counterexample :
    headRevisionDB none = Except.error "UndefinedTableError" := rfl

/-- Claim C7 (amended): headRevision returns the maximum revision present in
the ledger and 0 when the ledger is empty; against a database with no ledger
table it raises the undefined-table error instead of returning, and setup
creates the table, after which headRevision returns 0. -/
theorem head_revision_semantics (rows : List LedgerRow) (hne : rows ≠ []) :
    headRevisionDB (some []) = Except.ok 0 ∧
    headRevisionDB (some rows) = Except.ok (getLatestRevision rows) ∧
    (∀ r ∈ rows, r.revision ≤ getLatestRevision rows) ∧
    getLatestRevision rows ∈ rows.map (fun r => r.revision) ∧
    (∃ e, headRevisionDB none = Except.error e) ∧
    headRevisionDB (setup none) = Except.ok 0 :=
  ⟨rfl, rfl, fun _ hr => rev_le_head hr, head_mem_revs hne, ⟨_, rfl⟩, rfl⟩

theorem head_revision_semantics_witness :
    headRevisionDB (some [(⟨"1_a.sql", 1⟩ : LedgerRow)]) =
      Except.ok (getLatestRevision [(⟨"1_a.sql", 1⟩ : LedgerRow)]) ∧
    getLatestRevision [(⟨"1_a.sql", 1⟩ : LedgerRow)] ∈
      [(⟨"1_a.sql", 1⟩ : LedgerRow)].map (fun r => r.revision) ∧
    headRevisionDB (setup none) = Except.ok 0 :=
  ⟨(head_revision_semantics [⟨"1_a.sql", 1⟩] (by simp)).2.1,
   (head_revision_semantics [⟨"1_a.sql", 1⟩] (by simp)).2.2.2.1,
   (head_revision_semantics [⟨"1_a.sql", 1⟩] (by simp)).2.2.2.2.2⟩

/-- Claim C5 counterexample: the file -1_foo.sql has a leading token that
does not parse as a base-10 non-negative integer, yet discovery does not
fail - Python int() accepts the sign and discovery returns the script with
index -1. -/
theorem naming_nonneg_counterexample :
    specParsesAsNonNegInt (leadingToken "-1_foo.sql") = false ∧
    getMigrationScripts ["-1_foo.sql"] = Except.ok [(-1, "-1_foo.sql")] :=
  ⟨by decide, rfl⟩

/-- Claim C5 (amended): when some .sql file's leading token does not parse
as a base-10 integer with optional sign (Python int syntax), discovery fails
with an error identifying exactly the first such file in listing order and
returns no partial result, files not ending in .sql are silently ignored,
and no scripts are applied: run_migrations over such a directory raises that
same error and leaves the database state untouched. -/
theorem naming_violation_first_bad (names : List String) (bad : String)
    (h : (names.filter endsWithSql).find?
      (fun n => (pyInt (leadingToken n)).isNone) = some bad) :
    getMigrationScripts names =
      Except.error ("Migration \"" ++ bad ++ "\" must start with a number") ∧
    (∀ nm : String, endsWithSql nm = false →
      getMigrationScripts (nm :: names) = getMigrationScripts names) ∧
    ∀ (files : List MFile) (s : MigState),
      files.map (fun f => f.name) = names →
      runMigrations files s =
        (s, some ("Migration \"" ++ bad ++
          "\" must start with a number")) := by
  refine ⟨?_, ?_, ?_⟩
  · unfold getMigrationScripts
    rw [collect_first_bad _ bad h]
  · intro nm hnm
    unfold getMigrationScripts
    rw [List.filter_cons_of_neg (by simp [hnm])]
  · intro files s hfn
    unfold runMigrations
    rw [hfn]
    unfold getMigrationScripts
    rw [collect_first_bad _ bad h]

theorem naming_violation_first_bad_witness :
    getMigrationScripts ["1_a.sql", "another_migration.sql"] =
      Except.error ("Migration \"" ++ "another_migration.sql" ++
        "\" must start with a number") ∧
    runMigrations [⟨"1_a.sql", "select 1;"⟩,
        ⟨"another_migration.sql", "select 2;"⟩] ⟨[], []⟩ =
      (⟨[], []⟩, some ("Migration \"" ++ "another_migration.sql" ++
        "\" must start with a number")) :=
  ⟨(naming_violation_first_bad ["1_a.sql", "another_migration.sql"]
      "another_migration.sql" (by decide)).1,
   (naming_violation_first_bad ["1_a.sql", "another_migration.sql"]
      "another_migration.sql" (by decide)).2.2
     [⟨"1_a.sql", "select 1;"⟩, ⟨"another_migration.sql", "select 2;"⟩]
     ⟨[], []⟩ rfl⟩

/-- Claim C8 counterexample: on a directory whose lone .sql file has no
leading integer, create-script does not create a file at all - discovery's
naming error propagates out of new_migration_script. -/
theorem new_script_discovery_failure_counterexample :
    newMigrationScript [⟨"x.sql", "select 1;"⟩] (some "foo") "ab12cd34" =
      Except.error ("Migration \"" ++ "x.sql" ++
        "\" must start with a number") := rfl

/-- Claim C8 (amended): on every directory state on which discovery
succeeds, create-script creates exactly one new empty file named with one
plus the maximum index among the discovered scripts (1 when none exist) and
the given name - or the generated identifier when no name is given - leaving
all existing files unchanged. -/
theorem new_migration_script_behavior (files : List MFile)
    (scriptName : Option String) (randomId : String)
    (scripts : List (Int × String))
    (h : getMigrationScripts (files.map (fun f => f.name)) =
      Except.ok scripts) :
    newMigrationScript files scriptName randomId =
      Except.ok (files ++ [⟨intDec (maxIndexD scripts + 1) ++ "_" ++
        chosenName scriptName randomId ++ ".sql", ""⟩]) := by
  unfold newMigrationScript
  rw [h]
  show Except.ok (writeFileW files (intDec (lastIndexD scripts + 1) ++ "_" ++
    chosenName scriptName randomId ++ ".sql") "") = _
  rw [lastIndexD_eq_max scripts (getMigrationScripts_chain h)]
  unfold writeFileW
  cases hb : files.any (fun f => f.name == intDec (maxIndexD scripts + 1) ++
      "_" ++ chosenName scriptName randomId ++ ".sql") with
  | false =>
    rfl
  | true =>
    exfalso
    obtain ⟨f, hf, hfn⟩ := List.any_eq_true.mp hb
    have hname : f.name = intDec (maxIndexD scripts + 1) ++ "_" ++
        chosenName scriptName randomId ++ ".sql" := by simpa using hfn
    have hmemname : intDec (maxIndexD scripts + 1) ++ "_" ++
        chosenName scriptName randomId ++ ".sql" ∈
        files.map (fun f => f.name) := by
      rw [← hname]
      exact List.mem_map_of_mem _ hf
    have hsql : endsWithSql (intDec (maxIndexD scripts + 1) ++ "_" ++
        chosenName scriptName randomId ++ ".sql") = true :=
      endsWithSql_append _
    obtain ⟨j, hj⟩ := getMigrationScripts_mem h hmemname hsql
    have hparse := getMigrationScripts_sound h hj
    have hpy := (parseScript_ok hparse).2
    have hshape : (intDec (maxIndexD scripts + 1) ++ "_" ++
        chosenName scriptName randomId ++ ".sql").toList =
        (intDec (maxIndexD scripts + 1)).toList ++ '_' ::
          ((chosenName scriptName randomId).toList ++ (".sql").toList) := by
      rw [toList_append, toList_append, toList_append]
      simp [List.append_assoc]
    rw [leadingToken_prefixed hshape, pyInt_intDec] at hpy
    have hjj : maxIndexD scripts + 1 = j := Option.some.inj hpy
    have hle : j ≤ maxIndexD scripts := mem_le_maxIndexD hj
    omega

theorem new_migration_script_behavior_witness :
    newMigrationScript [⟨"1_a.sql", "select 1;"⟩] none "ab12cd34" =
      Except.ok ([(⟨"1_a.sql", "select 1;"⟩ : MFile)] ++
        [(⟨intDec (maxIndexD [((1 : Int), "1_a.sql")] + 1) ++ "_" ++
          chosenName none "ab12cd34" ++ ".sql", ""⟩ : MFile)]) :=
  new_migration_script_behavior [⟨"1_a.sql", "select 1;"⟩] none "ab12cd34"
    [(1, "1_a.sql")] rfl

/-- Claim C1: with the directory holding exactly 1_a.sql, 2_b.sql and
3_c.sql (the pending ones nonempty) and the ledger head at 1,
run_migrations applies 2_b.sql first and 3_c.sql second, appends exactly the
ledger rows (2_b.sql, 2) and (3_c.sql, 3), and the final head revision
is 3. -/
theorem run_migrations_scenario (L0 : List LedgerRow) (E0 : List String)
    (cA cB cC : String) (hhead : getLatestRevision L0 = 1)
    (hB : cB ≠ "") (hC : cC ≠ "") :
    runMigrations [⟨"1_a.sql", cA⟩, ⟨"2_b.sql", cB⟩, ⟨"3_c.sql", cC⟩]
        ⟨L0, E0⟩ =
      (⟨L0 ++ [⟨"2_b.sql", 2⟩, ⟨"3_c.sql", 3⟩], E0 ++ [cB, cC]⟩, none) ∧
    getLatestRevision (L0 ++ [⟨"2_b.sql", 2⟩, ⟨"3_c.sql", 3⟩]) = 3 := by
  have hL0ne : L0 ≠ [] := ne_nil_of_head_ne (by rw [hhead]; decide)
  have h2head : getLatestRevision (L0 ++ [⟨"2_b.sql", 2⟩]) = 2 :=
    head_append_gt "2_b.sql" (by rw [hhead]; decide)
  constructor
  · have hd : getMigrationScripts
        (List.map (fun f => f.name)
          ([⟨"1_a.sql", cA⟩, ⟨"2_b.sql", cB⟩, ⟨"3_c.sql", cC⟩] :
            List MFile)) =
        Except.ok [(1, "1_a.sql"), (2, "2_b.sql"), (3, "3_c.sql")] := rfl
    unfold runMigrations
    rw [hd]
    show runList [⟨"1_a.sql", cA⟩, ⟨"2_b.sql", cB⟩, ⟨"3_c.sql", cC⟩]
      [(1, "1_a.sql"), (2, "2_b.sql"), (3, "3_c.sql")] ⟨L0, E0⟩ = _
    have hs1 : (1 : Int) ≤ getLatestRevision
        ((⟨L0, E0⟩ : MigState).ledger) := le_of_eq hhead.symm
    have hn2 : ¬ (2 : Int) ≤ getLatestRevision
        ((⟨L0, E0⟩ : MigState).ledger) := by
      show ¬ (2 : Int) ≤ getLatestRevision L0
      rw [hhead]
      decide
    have hlf2 : lookupFile [⟨"1_a.sql", cA⟩, ⟨"2_b.sql", cB⟩,
        ⟨"3_c.sql", cC⟩] "2_b.sql" = some cB := rfl
    have hn3 : ¬ (3 : Int) ≤ getLatestRevision
        ((⟨L0 ++ [⟨"2_b.sql", 2⟩], E0 ++ [cB]⟩ : MigState).ledger) := by
      show ¬ (3 : Int) ≤ getLatestRevision (L0 ++ [⟨"2_b.sql", 2⟩])
      rw [h2head]
      decide
    have hlf3 : lookupFile [⟨"1_a.sql", cA⟩, ⟨"2_b.sql", cB⟩,
        ⟨"3_c.sql", cC⟩] "3_c.sql" = some cC := rfl
    refine (runList_skip hs1).trans ?_
    refine (runList_apply hn2 hlf2 hB).trans ?_
    refine (runList_apply (s := ⟨L0 ++ [⟨"2_b.sql", 2⟩], E0 ++ [cB]⟩)
      hn3 hlf3 hC).trans ?_
    show ((⟨(L0 ++ [⟨"2_b.sql", 2⟩]) ++ [⟨"3_c.sql", 3⟩],
      (E0 ++ [cB]) ++ [cC]⟩ : MigState), (none : Option String)) = _
    simp
  · have h1 : L0 ++ [(⟨"2_b.sql", 2⟩ : LedgerRow), ⟨"3_c.sql", 3⟩] =
        (L0 ++ [⟨"2_b.sql", 2⟩]) ++ [⟨"3_c.sql", 3⟩] := by simp
    rw [h1, head_append_one _ (by simp [hL0ne]), h2head]
    decide

theorem run_migrations_scenario_witness :
    (runMigrations [⟨"1_a.sql", "select 1;"⟩, ⟨"2_b.sql", "select 2;"⟩,
        ⟨"3_c.sql", "select 3;"⟩] ⟨[⟨"1_a.sql", 1⟩], []⟩ =
      (⟨[⟨"1_a.sql", 1⟩] ++ [⟨"2_b.sql", 2⟩, ⟨"3_c.sql", 3⟩],
        [] ++ ["select 2;", "select 3;"]⟩, none)) ∧
    getLatestRevision ([⟨"1_a.sql", 1⟩] ++
      [⟨"2_b.sql", 2⟩, ⟨"3_c.sql", 3⟩]) = 3 :=
  run_migrations_scenario [⟨"1_a.sql", 1⟩] [] "select 1;" "select 2;"
    "select 3;" rfl (by decide) (by decide)

end Migo
